import Mathlib

/-!
Verification of the MiniDB embedded record store (`src/lib.rs`).

The Rust code keeps a `MiniDB` with a directory path and a
`HashMap<String, Table>`; a `Table` has a `name` and a
`HashMap<u64, Record>`; a `Record` has an `id : u64` and a
`HashMap<String, String>` of fields.  `save` serializes each table with
serde_json to `<key>.json` inside the directory; `load` scans the
directory, deserializes every file whose extension is `json`, and inserts
the table under its own `name` field.

HashMaps are embedded as association lists with replace-on-insert
semantics (`mapInsert`); a list whose keys are `Nodup` represents a
HashMap.  The directory is embedded as an association list from file
name to parsed JSON content; serde_json's serialization of the derived
types is embedded as `encodeTable` / `decodeTable` over a small JSON
value type, including the stringification of the `u64` record-map keys.
-/

/-- Replace-on-insert for association lists, mirroring
`HashMap::insert`: if the key is present the value is updated (and the
stored key kept), otherwise the pair is appended. -/
def mapInsert {K V : Type} [DecidableEq K] (k : K) (v : V) :
    List (K × V) → List (K × V)
  | [] => [(k, v)]
  | (k₁, v₁) :: rest =>
      if k₁ = k then (k₁, v) :: rest else (k₁, v₁) :: mapInsert k v rest

/-- Lookup in an association list, mirroring `HashMap::get`. -/
def mapFind? {K V : Type} [DecidableEq K] (k : K) :
    List (K × V) → Option V
  | [] => none
  | (k₁, v₁) :: rest => if k₁ = k then some v₁ else mapFind? k rest

/-- The keys of an association list. -/
def mapKeys {K V : Type} (m : List (K × V)) : List K :=
  m.map Prod.fst

/-- `Record` from `src/lib.rs`: a caller-assigned numeric id and an open
string-to-string field map. -/
structure Record where
  id : Nat
  data : List (String × String)
deriving DecidableEq, Repr

/-- `Table` from `src/lib.rs`: a name and a map from record id to
record. -/
structure Table where
  name : String
  records : List (Nat × Record)
deriving DecidableEq, Repr

/-- `MiniDB` from `src/lib.rs`: a directory path and the in-memory map
from table name to table. -/
structure MiniDB where
  path : String
  tables : List (String × Table)
deriving DecidableEq, Repr

/-- Result of `MiniDB::new`: the constructed store together with whether
the directory-creation failure message was printed. -/
structure NewResult where
  db : MiniDB
  loggedError : Bool
deriving DecidableEq, Repr

/-- `MiniDB::new`: attempts to create the directory; a failure (the
`mkdirFails` outcome of `fs::create_dir_all`) is only reported via
`eprintln!`, and the store is returned regardless, with an empty table
map. -/
def MiniDB.new (path : String) (mkdirFails : Bool) : NewResult :=
  { db := { path := path, tables := [] }, loggedError := mkdirFails }

/-- `MiniDB::create_table`: unconditionally inserts a fresh empty table
under `name`, replacing any table previously stored there. -/
def MiniDB.create_table (db : MiniDB) (name : String) : MiniDB :=
  { db with tables := mapInsert name { name := name, records := [] } db.tables }

/-- `MiniDB::insert`: if the table exists, insert the record under its
own `id` (replacing any record with that id); otherwise do nothing. -/
def MiniDB.insert (db : MiniDB) (table : String) (record : Record) : MiniDB :=
  match mapFind? table db.tables with
  | none => db
  | some t =>
      { db with
        tables :=
          mapInsert table
            { t with records := mapInsert record.id record t.records }
            db.tables }

/-- JSON values, as far as the on-disk format of this store needs them:
strings, non-negative numbers and objects. -/
inductive Json : Type where
  | str (s : String) : Json
  | num (n : Nat) : Json
  | obj (fields : List (String × Json)) : Json

/-- The big-endian decimal digits of `n`, least significant last; empty
for `0`.  The first argument is structural fuel, with `n ≤ fuel`. -/
def natDigitsAux : Nat → Nat → List Nat
  | 0, _ => []
  | fuel + 1, n => if n = 0 then [] else natDigitsAux fuel (n / 10) ++ [n % 10]

/-- The character for a single decimal digit. -/
def digitToChar (d : Nat) : Char := Char.ofNat (48 + d)

/-- The digit value of a decimal character, `none` for anything else. -/
def charToDigit? (c : Char) : Option Nat :=
  if 48 ≤ c.toNat ∧ c.toNat ≤ 57 then some (c.toNat - 48) else none

/-- The decimal representation of `n`, as serde_json prints a `u64` used
as a map key. -/
def natToString (n : Nat) : String :=
  if n = 0 then "0" else String.mk ((natDigitsAux n n).map digitToChar)

/-- The digit values of a list of characters, `none` if any character is
not a decimal digit. -/
def parseDigits : List Char → Option (List Nat)
  | [] => some []
  | c :: cs => do
      let d ← charToDigit? c
      let ds ← parseDigits cs
      pure (d :: ds)

/-- The value of a big-endian digit list. -/
def digitsVal (ds : List Nat) : Nat :=
  ds.foldl (fun a d => 10 * a + d) 0

/-- Parse a decimal string back into a number, as serde_json parses a
stringified `u64` map key; `none` on an empty or non-digit string. -/
def stringToNat? (s : String) : Option Nat :=
  if s.data.isEmpty then none else (parseDigits s.data).map digitsVal

/-- serde serialization of a `Record`: an object with its `id` and its
`data` map. -/
def encodeRecord (r : Record) : Json :=
  .obj [("id", .num r.id), ("data", .obj (r.data.map fun p => (p.1, .str p.2)))]

/-- serde serialization of a `Table`: an object with its `name` and its
`records` map, whose `u64` keys are stringified. -/
def encodeTable (t : Table) : Json :=
  .obj [("name", .str t.name),
        ("records", .obj (t.records.map fun p => (natToString p.1, encodeRecord p.2)))]

/-- Decode the `data` field map of a record: every value must be a
string. -/
def decodeStrMap : List (String × Json) → Option (List (String × String))
  | [] => some []
  | (k, .str v) :: rest => (decodeStrMap rest).map (fun m => (k, v) :: m)
  | _ => none

/-- serde deserialization of a `Record` from a JSON value: an object
whose `id` field is a number and whose `data` field is a
string-to-string object. -/
def decodeRecord (j : Json) : Option Record :=
  match j with
  | .obj fields =>
      match mapFind? "id" fields, mapFind? "data" fields with
      | some (.num i), some (.obj ds) =>
          (decodeStrMap ds).map fun d => { id := i, data := d }
      | _, _ => none
  | _ => none

/-- Decode the `records` field map of a table: every key must parse as a
number and every value as a record.  serde does not check the parsed key
against the record's own `id` field. -/
def decodeRecMap : List (String × Json) → Option (List (Nat × Record))
  | [] => some []
  | (k, v) :: rest => do
      let i ← stringToNat? k
      let r ← decodeRecord v
      let m ← decodeRecMap rest
      pure ((i, r) :: m)

/-- serde deserialization of a `Table` from a JSON value, the effect of
`serde_json::from_str` in `MiniDB::load`. -/
def decodeTable (j : Json) : Option Table :=
  match j with
  | .obj fields =>
      match mapFind? "name" fields, mapFind? "records" fields with
      | some (.str n), some (.obj rs) =>
          (decodeRecMap rs).map fun m => { name := n, records := m }
      | _, _ => none
  | _ => none

/-- The store's directory on disk: an association list from file name to
the parsed JSON content of the file. -/
abbrev FS : Type := List (String × Json)

/-- `Path::extension` of a flat file name: the portion after the final
dot; `none` when there is no dot, or when the name begins with a dot and
has no other dot. -/
def fileExtension (fname : String) : Option String :=
  match fname.data with
  | [] => none
  | c :: rest =>
      if (if c = '.' then rest else fname.data).contains '.' then
        some (String.mk (fname.data.reverse.takeWhile (fun a => a ≠ '.')).reverse)
      else none

/-- The extension test of `MiniDB::load`:
`path.extension().unwrap_or_default() == "json"`. -/
def hasJsonExt (fname : String) : Bool :=
  (fileExtension fname).getD "" = "json"

/-- The file name `MiniDB::save` writes a table key `n` to:
`format!("\x7b\x7d.json", n)`. -/
def tableFileName (n : String) : String := n ++ ".json"

/-- The loop of `MiniDB::save`: for every `(name, table)` pair, write
the serialized table to `<name>.json`, overwriting that file. -/
def saveTables : List (String × Table) → FS → FS
  | [], fs => fs
  | (n, t) :: rest, fs =>
      saveTables rest (mapInsert (tableFileName n) (encodeTable t) fs)

/-- `MiniDB::save` over the store's directory. -/
def MiniDB.save (db : MiniDB) (fs : FS) : FS :=
  saveTables db.tables fs

/-- The loop of `MiniDB::load`: scan the directory entries in order; for
every file with extension `json`, deserialize it (a failure aborts the
whole load, mirroring `.unwrap()`) and insert the table under its own
`name` field. -/
def loadAux (tables : List (String × Table)) : List (String × Json) →
    Option (List (String × Table))
  | [] => some tables
  | (fname, content) :: rest =>
      if hasJsonExt fname then
        match decodeTable content with
        | none => none
        | some t => loadAux (mapInsert t.name t tables) rest
      else loadAux tables rest

/-- `MiniDB::load` over the store's directory. -/
def MiniDB.load (db : MiniDB) (fs : FS) : Option MiniDB :=
  (loadAux db.tables fs).map fun ts => { db with tables := ts }

/-- The list of tables `MiniDB::load` deserializes from the directory, in
scan order: one per file whose extension is `json`; `none` when any such
file fails to deserialize. -/
def loadedList : List (String × Json) → Option (List Table)
  | [] => some []
  | (fname, c) :: rest =>
      if hasJsonExt fname then
        match decodeTable c with
        | none => none
        | some t => (loadedList rest).map fun ts => t :: ts
      else loadedList rest

/-- Insert a list of loaded tables into a table map, each under its own
`name` field. -/
def foldIns (acc : List (String × Table)) (ts : List Table) :
    List (String × Table) :=
  ts.foldl (fun m t => mapInsert t.name t m) acc

/-- The per-record key invariant of a table: every record is stored in
the record map under a key equal to its own `id` field. -/
abbrev TableGood (t : Table) : Prop := ∀ q ∈ t.records, q.2.id = q.1

/-- The per-record key invariant over a whole store. -/
abbrev DBGood (db : MiniDB) : Prop := ∀ p ∈ db.tables, TableGood p.2

/-! ### Concrete sample data, from the spec's scenarios -/

/-- The record of the spec's round-trip scenario. -/
def laptopRecord : Record :=
  { id := 10, data := [("name", "Laptop"), ("price", "999")] }

/-- The table of the spec's round-trip scenario. -/
def productsTable : Table :=
  { name := "products", records := [(10, laptopRecord)] }

/-- The store of the spec's round-trip scenario. -/
def productsDB : MiniDB :=
  { path := "testdir", tables := [("products", productsTable)] }

/-- A store holding one table whose name is the empty string, reached
through the public operations. -/
def emptyNameDB : MiniDB :=
  ((MiniDB.new "d" false).db.create_table "").insert ""
    { id := 10, data := [("price", "999")] }

/-- A store with a `"users"` table holding one record under id 1. -/
def usersDB : MiniDB :=
  { path := "d",
    tables := [("users",
      { name := "users",
        records := [(1, { id := 1, data := [("role", "Admin")] })] })] }

/-- A store holding only an in-memory table `"a"`. -/
def tableADB : MiniDB :=
  { path := "d", tables := [("a", { name := "a", records := [] })] }

/-- A directory holding only a file for a table named `"b"`. -/
def tableBFS : FS :=
  [("b.json", encodeTable { name := "b", records := [] })]

/-- A directory holding one hand-written table file whose record-map key
`"10"` disagrees with the record's own `id` field 99. -/
def mismatchedFS : FS :=
  [("x.json",
    Json.obj [("name", Json.str "x"),
      ("records", Json.obj [("10", encodeRecord { id := 99, data := [] })])])]

/-! ### Association-map lemmas -/

theorem mapFind?_mapInsert_self {K V : Type} [DecidableEq K] (k : K) (v : V)
    (m : List (K × V)) : mapFind? k (mapInsert k v m) = some v := by
  induction m with
  | nil => simp [mapInsert, mapFind?]
  | cons p rest ih =>
      obtain ⟨k₁, v₁⟩ := p
      by_cases h : k₁ = k
      · simp [mapInsert, mapFind?, h]
      · simp [mapInsert, mapFind?, h, ih]

theorem mapFind?_mapInsert_ne {K V : Type} [DecidableEq K] {k f : K} (v : V)
    (m : List (K × V)) (h : k ≠ f) :
    mapFind? f (mapInsert k v m) = mapFind? f m := by
  induction m with
  | nil => simp [mapInsert, mapFind?, h]
  | cons p rest ih =>
      obtain ⟨k₁, v₁⟩ := p
      by_cases h₁ : k₁ = k
      · subst h₁
        simp [mapInsert, mapFind?, h]
      · by_cases h₂ : k₁ = f
        · subst h₂
          simp [mapInsert, mapFind?, h₁]
        · simp [mapInsert, mapFind?, h₁, h₂, ih]

theorem mapInsert_self {K V : Type} [DecidableEq K] {k : K} {v : V}
    {m : List (K × V)} (h : mapFind? k m = some v) : mapInsert k v m = m := by
  induction m with
  | nil => simp [mapFind?] at h
  | cons p rest ih =>
      obtain ⟨k₁, v₁⟩ := p
      by_cases h₁ : k₁ = k
      · simp only [mapFind?, if_pos h₁, Option.some.injEq] at h
        simp [mapInsert, h₁, h]
      · simp only [mapFind?, if_neg h₁] at h
        simp [mapInsert, h₁, ih h]

theorem mapInsert_of_not_mem {K V : Type} [DecidableEq K] {k : K} (v : V)
    {m : List (K × V)} (h : k ∉ mapKeys m) :
    mapInsert k v m = m ++ [(k, v)] := by
  induction m with
  | nil => simp [mapInsert]
  | cons p rest ih =>
      obtain ⟨k₁, v₁⟩ := p
      simp only [mapKeys, List.map_cons, List.mem_cons, not_or] at h
      have h₁ : k₁ ≠ k := fun hc => h.1 hc.symm
      simp [mapInsert, h₁, ih h.2]

theorem mapKeys_mapInsert_mem {K V : Type} [DecidableEq K] {k : K} (v : V)
    {m : List (K × V)} (h : k ∈ mapKeys m) :
    mapKeys (mapInsert k v m) = mapKeys m := by
  induction m with
  | nil => simp [mapKeys] at h
  | cons p rest ih =>
      obtain ⟨k₁, v₁⟩ := p
      by_cases h₁ : k₁ = k
      · simp [mapInsert, mapKeys, h₁]
      · simp only [mapKeys, List.map_cons, List.mem_cons] at h
        rcases h with h | h
        · exact absurd h.symm h₁
        · have ih₂ : mapKeys (mapInsert k v rest) = mapKeys rest := ih h
          simp only [mapKeys] at ih₂
          simp [mapInsert, mapKeys, h₁, ih₂]

theorem mapKeys_mapInsert_nodup {K V : Type} [DecidableEq K] (k : K) (v : V)
    {m : List (K × V)} (h : (mapKeys m).Nodup) :
    (mapKeys (mapInsert k v m)).Nodup := by
  by_cases hk : k ∈ mapKeys m
  · rw [mapKeys_mapInsert_mem v hk]; exact h
  · rw [mapInsert_of_not_mem v hk]
    simp only [mapKeys, List.map_append, List.map_cons, List.map_nil]
    refine List.Nodup.append h (List.nodup_singleton k) ?_
    intro a ha hb
    rw [List.mem_singleton] at hb
    exact hk (hb ▸ ha)

theorem mapFind?_eq_none_of_not_mem {K V : Type} [DecidableEq K] {k : K}
    {m : List (K × V)} (h : k ∉ mapKeys m) : mapFind? k m = none := by
  induction m with
  | nil => simp [mapFind?]
  | cons p rest ih =>
      obtain ⟨k₁, v₁⟩ := p
      simp only [mapKeys, List.map_cons, List.mem_cons, not_or] at h
      have h₁ : k₁ ≠ k := fun hc => h.1 hc.symm
      simp [mapFind?, h₁, ih h.2]

theorem mem_mapInsert {K V : Type} [DecidableEq K] {k : K} {v : V}
    {m : List (K × V)} {q : K × V} (h : q ∈ mapInsert k v m) :
    q ∈ m ∨ q = (k, v) := by
  induction m with
  | nil => simpa [mapInsert] using h
  | cons p rest ih =>
      obtain ⟨k₁, v₁⟩ := p
      by_cases h₁ : k₁ = k
      · simp only [mapInsert, if_pos h₁, List.mem_cons] at h
        rcases h with h | h
        · exact Or.inr (by rw [h, h₁])
        · exact Or.inl (List.mem_cons_of_mem _ h)
      · simp only [mapInsert, if_neg h₁, List.mem_cons] at h
        rcases h with h | h
        · exact Or.inl (by simp [h])
        · rcases ih h with h₂ | h₂
          · exact Or.inl (List.mem_cons_of_mem _ h₂)
          · exact Or.inr h₂

theorem mapFind?_of_mem_nodup {K V : Type} [DecidableEq K] {k : K} {v : V}
    {m : List (K × V)} (hnd : (mapKeys m).Nodup) (hq : (k, v) ∈ m) :
    mapFind? k m = some v := by
  induction m with
  | nil => simp at hq
  | cons p rest ih =>
      obtain ⟨k₁, v₁⟩ := p
      simp only [mapKeys, List.map_cons, List.nodup_cons] at hnd
      rcases List.mem_cons.mp hq with h | h
      · obtain ⟨hk, hv⟩ := Prod.mk.injEq .. ▸ h.symm
        simp [mapFind?, hk.symm, hv]
      · have h₁ : k₁ ≠ k := by
          intro hc
          exact hnd.1 (hc ▸ List.mem_map_of_mem Prod.fst h)
        simp [mapFind?, h₁, ih hnd.2 h]

/-! ### Decimal key codec round-trip -/

theorem natDigitsAux_lt (fuel : Nat) : ∀ n, ∀ d ∈ natDigitsAux fuel n, d < 10 := by
  induction fuel with
  | zero => simp [natDigitsAux]
  | succ fuel ih =>
      intro n d hd
      by_cases h : n = 0
      · simp [natDigitsAux, h] at hd
      · simp only [natDigitsAux, if_neg h, List.mem_append, List.mem_singleton] at hd
        rcases hd with hd | hd
        · exact ih _ d hd
        · exact hd ▸ Nat.mod_lt n (by norm_num)

theorem charToDigit?_digitToChar : ∀ d, d < 10 → charToDigit? (digitToChar d) = some d := by
  decide

theorem parseDigits_map_digitToChar (ds : List Nat) (h : ∀ d ∈ ds, d < 10) :
    parseDigits (ds.map digitToChar) = some ds := by
  induction ds with
  | nil => rfl
  | cons d rest ih =>
      have h₁ := charToDigit?_digitToChar d (h d (List.mem_cons_self d rest))
      have h₂ := ih fun x hx => h x (List.mem_cons_of_mem d hx)
      simp [parseDigits, h₁, h₂]

theorem foldl_natDigitsAux (fuel : Nat) : ∀ n a, n ≤ fuel →
    List.foldl (fun x d => 10 * x + d) a (natDigitsAux fuel n) =
      a * 10 ^ (natDigitsAux fuel n).length + n := by
  induction fuel with
  | zero =>
      intro n a h
      have h0 : n = 0 := Nat.le_zero.mp h
      subst h0
      simp [natDigitsAux]
  | succ fuel ih =>
      intro n a h
      by_cases h0 : n = 0
      · simp [natDigitsAux, h0]
      · have hdiv : n / 10 ≤ fuel := by
          have : n / 10 < n := Nat.div_lt_self (Nat.pos_of_ne_zero h0) (by norm_num)
          omega
        simp only [natDigitsAux, if_neg h0, List.foldl_append, List.foldl_cons,
          List.foldl_nil, List.length_append, List.length_cons, List.length_nil]
        rw [ih _ _ hdiv]
        calc 10 * (a * 10 ^ (natDigitsAux fuel (n / 10)).length + n / 10) + n % 10
            = a * (10 ^ (natDigitsAux fuel (n / 10)).length * 10) +
                (10 * (n / 10) + n % 10) := by ring
          _ = a * 10 ^ ((natDigitsAux fuel (n / 10)).length + (0 + 1)) + n := by
              rw [Nat.div_add_mod, ← pow_succ]

theorem digitsVal_natDigitsAux (n : Nat) : digitsVal (natDigitsAux n n) = n := by
  simpa [digitsVal] using foldl_natDigitsAux n n 0 le_rfl

theorem natDigitsAux_ne_nil {fuel n : Nat} (h0 : n ≠ 0) (hf : fuel ≠ 0) :
    natDigitsAux fuel n ≠ [] := by
  cases fuel with
  | zero => exact absurd rfl hf
  | succ fuel => simp [natDigitsAux, h0]

theorem stringToNat?_natToString (n : Nat) : stringToNat? (natToString n) = some n := by
  by_cases h0 : n = 0
  · subst h0; decide
  · have hne : (natDigitsAux n n).map digitToChar ≠ [] := by
      simp [List.map_eq_nil_iff, natDigitsAux_ne_nil h0 h0]
    have hparse := parseDigits_map_digitToChar (natDigitsAux n n) (natDigitsAux_lt n n)
    simp [natToString, stringToNat?, h0, List.isEmpty_iff, hne, hparse,
      digitsVal_natDigitsAux]

/-! ### serde round-trip -/

theorem decodeStrMap_encode (d : List (String × String)) :
    decodeStrMap (d.map fun p => (p.1, Json.str p.2)) = some d := by
  induction d with
  | nil => rfl
  | cons p rest ih =>
      obtain ⟨k, v⟩ := p
      simp [decodeStrMap, ih]

theorem decodeRecord_encodeRecord (r : Record) :
    decodeRecord (encodeRecord r) = some r := by
  obtain ⟨i, d⟩ := r
  simp [decodeRecord, encodeRecord, mapFind?, decodeStrMap_encode]

theorem decodeRecMap_encode (rs : List (Nat × Record)) :
    decodeRecMap (rs.map fun p => (natToString p.1, encodeRecord p.2)) = some rs := by
  induction rs with
  | nil => rfl
  | cons p rest ih =>
      obtain ⟨i, r⟩ := p
      simp [decodeRecMap, stringToNat?_natToString, decodeRecord_encodeRecord, ih]

theorem decodeTable_encodeTable (t : Table) :
    decodeTable (encodeTable t) = some t := by
  obtain ⟨n, rs⟩ := t
  simp [decodeTable, encodeTable, mapFind?, decodeRecMap_encode]

/-! ### File-name lemmas -/

theorem tableFileName_inj {a b : String} (h : tableFileName a = tableFileName b) :
    a = b := by
  unfold tableFileName at h
  have hd : a.data ++ ".json".data = b.data ++ ".json".data := by
    rw [← String.data_append, ← String.data_append, h]
  exact String.ext (List.append_cancel_right hd)

theorem takeWhile_json_prefix (xs : List Char) :
    (['n', 'o', 's', 'j', '.'] ++ xs).takeWhile (fun a => a ≠ '.')
      = ['n', 'o', 's', 'j'] := by
  simp [List.takeWhile_cons]

theorem fileExtension_tableFileName {n : String} (h : n ≠ "") :
    fileExtension (tableFileName n) = some "json" := by
  obtain ⟨l⟩ := n
  cases l with
  | nil => exact absurd rfl h
  | cons c rest =>
      have hd : (tableFileName ⟨c :: rest⟩).data
          = c :: (rest ++ ['.', 'j', 's', 'o', 'n']) := by
        show ((⟨c :: rest⟩ : String) ++ ".json").data = _
        rw [String.data_append]
        rfl
      have hdot : '.' ∈ rest ++ ['.', 'j', 's', 'o', 'n'] := by simp
      have hcond : (if c = '.' then rest ++ ['.', 'j', 's', 'o', 'n']
          else c :: (rest ++ ['.', 'j', 's', 'o', 'n'])).contains '.' = true := by
        by_cases hc : c = '.'
        · rw [if_pos hc]
          exact List.elem_iff.mpr hdot
        · rw [if_neg hc]
          simp only [List.contains_cons]
          have : (rest ++ ['.', 'j', 's', 'o', 'n']).contains '.' = true :=
            List.elem_iff.mpr hdot
          simp [this]
      unfold fileExtension
      rw [hd]
      simp only [hcond, if_pos]
      have hrev : (c :: (rest ++ ['.', 'j', 's', 'o', 'n'])).reverse
          = ['n', 'o', 's', 'j', '.'] ++ (rest.reverse ++ [c]) := by
        simp
      rw [hrev, takeWhile_json_prefix]
      rfl

theorem hasJsonExt_tableFileName {n : String} (h : n ≠ "") :
    hasJsonExt (tableFileName n) = true := by
  simp [hasJsonExt, fileExtension_tableFileName h]

/-! ### Save lemmas -/

theorem saveTables_lookup_not_touched (ts : List (String × Table)) (fs : FS)
    {f : String} (h : ∀ q ∈ ts, tableFileName q.1 ≠ f) :
    mapFind? f (saveTables ts fs) = mapFind? f fs := by
  induction ts generalizing fs with
  | nil => rfl
  | cons p rest ih =>
      obtain ⟨n, t⟩ := p
      rw [saveTables, ih _ fun q hq => h q (List.mem_cons_of_mem _ hq)]
      exact mapFind?_mapInsert_ne _ _ (h (n, t) (List.mem_cons_self _ _))

theorem saveTables_lookup_mem (ts : List (String × Table)) (fs : FS)
    (hnd : (mapKeys ts).Nodup) {q : String × Table} (hq : q ∈ ts) :
    mapFind? (tableFileName q.1) (saveTables ts fs) = some (encodeTable q.2) := by
  induction ts generalizing fs with
  | nil => simp at hq
  | cons p rest ih =>
      obtain ⟨n, t⟩ := p
      simp only [mapKeys, List.map_cons, List.nodup_cons] at hnd
      rcases List.mem_cons.mp hq with h | h
      · subst h
        have hne : ∀ q₂ ∈ rest, tableFileName q₂.1 ≠ tableFileName n := by
          intro q₂ hq₂ hc
          have h₃ : q₂.1 = n := tableFileName_inj hc
          exact hnd.1 (h₃ ▸ List.mem_map_of_mem Prod.fst hq₂)
        rw [saveTables, saveTables_lookup_not_touched rest _ hne]
        exact mapFind?_mapInsert_self _ _ _
      · rw [saveTables]
        exact ih _ hnd.2 h

theorem saveTables_keys_nodup (ts : List (String × Table)) (fs : FS)
    (h : (mapKeys fs).Nodup) : (mapKeys (saveTables ts fs)).Nodup := by
  induction ts generalizing fs with
  | nil => exact h
  | cons p rest ih =>
      obtain ⟨n, t⟩ := p
      exact ih _ (mapKeys_mapInsert_nodup _ _ h)

theorem saveTables_idem (ts : List (String × Table)) (fs : FS)
    (hnd : (mapKeys ts).Nodup) :
    saveTables ts (saveTables ts fs) = saveTables ts fs := by
  induction ts generalizing fs with
  | nil => rfl
  | cons p rest ih =>
      obtain ⟨n, t⟩ := p
      simp only [mapKeys, List.map_cons, List.nodup_cons] at hnd
      have hfresh : ∀ q ∈ rest, tableFileName q.1 ≠ tableFileName n :=
        fun q hq hc => hnd.1 (tableFileName_inj hc ▸ List.mem_map_of_mem Prod.fst hq)
      have hlook : mapFind? (tableFileName n)
          (saveTables rest (mapInsert (tableFileName n) (encodeTable t) fs))
            = some (encodeTable t) := by
        rw [saveTables_lookup_not_touched rest _ hfresh]
        exact mapFind?_mapInsert_self _ _ _
      rw [saveTables, saveTables, mapInsert_self hlook, ih _ hnd.2]

theorem saveTables_of_fresh (ts : List (String × Table)) (fs : FS)
    (hnd : (mapKeys ts).Nodup)
    (hfresh : ∀ q ∈ ts, tableFileName q.1 ∉ mapKeys fs) :
    saveTables ts fs = fs ++ ts.map fun q => (tableFileName q.1, encodeTable q.2) := by
  induction ts generalizing fs with
  | nil => simp [saveTables]
  | cons p rest ih =>
      obtain ⟨n, t⟩ := p
      simp only [mapKeys, List.map_cons, List.nodup_cons] at hnd
      rw [saveTables, mapInsert_of_not_mem _ (hfresh (n, t) (List.mem_cons_self _ _))]
      rw [ih (fs ++ [(tableFileName n, encodeTable t)]) hnd.2 ?_]
      · simp
      · intro q hq
        simp only [mapKeys, List.map_append, List.map_cons, List.map_nil,
          List.mem_append, List.mem_singleton, not_or]
        refine ⟨fun hc => hfresh q (List.mem_cons_of_mem _ hq) hc, fun hc =>
          hnd.1 (tableFileName_inj hc ▸ List.mem_map_of_mem Prod.fst hq)⟩

/-! ### Load lemmas -/

theorem loadAux_eq_loadedList (fs : List (String × Json))
    (acc : List (String × Table)) :
    loadAux acc fs = (loadedList fs).map (foldIns acc) := by
  induction fs generalizing acc with
  | nil => rfl
  | cons p rest ih =>
      obtain ⟨fname, c⟩ := p
      by_cases hj : hasJsonExt fname = true
      · cases hdec : decodeTable c with
        | none => simp [loadAux, loadedList, hj, hdec]
        | some t =>
            simp only [loadAux, loadedList, hj, if_true, hdec]
            rw [ih]
            cases loadedList rest <;> simp [foldIns]
      · simp only [loadAux, loadedList, hj, if_false]
        exact ih acc

theorem load_eq_loadedList (db : MiniDB) (fs : FS) :
    db.load fs = (loadedList fs).map fun ts =>
      { db with tables := foldIns db.tables ts } := by
  unfold MiniDB.load
  rw [loadAux_eq_loadedList]
  cases loadedList fs <;> rfl

theorem mapFind?_foldIns_not_mem (ts : List Table)
    (acc : List (String × Table)) {n : String} (h : ∀ t ∈ ts, t.name ≠ n) :
    mapFind? n (foldIns acc ts) = mapFind? n acc := by
  induction ts generalizing acc with
  | nil => rfl
  | cons t rest ih =>
      have step : foldIns acc (t :: rest) = foldIns (mapInsert t.name t acc) rest := rfl
      rw [step, ih _ fun x hx => h x (List.mem_cons_of_mem _ hx)]
      exact mapFind?_mapInsert_ne _ _ (h t (List.mem_cons_self _ _))

theorem mapFind?_foldIns_mem (ts : List Table) (acc : List (String × Table))
    {t : Table} (hnd : (ts.map Table.name).Nodup) (ht : t ∈ ts) :
    mapFind? t.name (foldIns acc ts) = some t := by
  induction ts generalizing acc with
  | nil => simp at ht
  | cons u rest ih =>
      simp only [List.map_cons, List.nodup_cons] at hnd
      rcases List.mem_cons.mp ht with h | h
      · subst h
        have step : foldIns acc (t :: rest) = foldIns (mapInsert t.name t acc) rest := rfl
        have hne : ∀ x ∈ rest, x.name ≠ t.name := by
          intro x hx hc
          exact hnd.1 (hc ▸ List.mem_map_of_mem Table.name hx)
        rw [step, mapFind?_foldIns_not_mem rest _ hne]
        exact mapFind?_mapInsert_self _ _ _
      · exact ih _ hnd.2 h

theorem mem_foldIns {ts : List Table} {acc : List (String × Table)}
    {p : String × Table} (h : p ∈ foldIns acc ts) : p ∈ acc ∨ p.2 ∈ ts := by
  induction ts generalizing acc with
  | nil => exact Or.inl h
  | cons t rest ih =>
      have step : foldIns acc (t :: rest) = foldIns (mapInsert t.name t acc) rest := rfl
      rw [step] at h
      rcases ih h with h₁ | h₁
      · rcases mem_mapInsert h₁ with h₂ | h₂
        · exact Or.inl h₂
        · exact Or.inr (by rw [h₂]; exact List.mem_cons_self _ _)
      · exact Or.inr (List.mem_cons_of_mem _ h₁)

theorem loadedList_saved (ts : List (String × Table))
    (h : ∀ q ∈ ts, q.1 ≠ "") :
    loadedList (ts.map fun q => (tableFileName q.1, encodeTable q.2))
      = some (ts.map Prod.snd) := by
  induction ts with
  | nil => rfl
  | cons p rest ih =>
      obtain ⟨n, t⟩ := p
      have hj := hasJsonExt_tableFileName (h (n, t) (List.mem_cons_self _ _))
      simp only [List.map_cons, loadedList, hj, if_true, decodeTable_encodeTable]
      rw [ih fun q hq => h q (List.mem_cons_of_mem _ hq)]
      rfl

theorem foldIns_fresh (ts : List (String × Table)) (acc : List (String × Table))
    (hnd : (mapKeys ts).Nodup) (hname : ∀ q ∈ ts, q.2.name = q.1)
    (hfresh : ∀ q ∈ ts, q.1 ∉ mapKeys acc) :
    foldIns acc (ts.map Prod.snd) = acc ++ ts := by
  induction ts generalizing acc with
  | nil => simp [foldIns]
  | cons p rest ih =>
      obtain ⟨n, t⟩ := p
      simp only [mapKeys, List.map_cons, List.nodup_cons] at hnd
      have hn : t.name = n := hname (n, t) (List.mem_cons_self _ _)
      have step : foldIns acc ((((n, t) : String × Table) :: rest).map Prod.snd)
          = foldIns (mapInsert t.name t acc) (rest.map Prod.snd) := rfl
      rw [step, hn, mapInsert_of_not_mem _ (hfresh (n, t) (List.mem_cons_self _ _))]
      rw [ih (acc ++ [(n, t)]) hnd.2
        (fun q hq => hname q (List.mem_cons_of_mem _ hq)) ?_]
      · simp
      · intro q hq
        simp only [mapKeys, List.map_append, List.map_cons, List.map_nil,
          List.mem_append, List.mem_singleton, not_or]
        refine ⟨fun hc => hfresh q (List.mem_cons_of_mem _ hq) hc,
          fun hc => hnd.1 (hc ▸ List.mem_map_of_mem Prod.fst hq)⟩

theorem mapFind?_mem {K V : Type} [DecidableEq K] {k : K} {v : V}
    {m : List (K × V)} (h : mapFind? k m = some v) : (k, v) ∈ m := by
  induction m with
  | nil => simp [mapFind?] at h
  | cons p rest ih =>
      obtain ⟨k₁, v₁⟩ := p
      by_cases h₁ : k₁ = k
      · subst h₁
        simp [mapFind?] at h
        subst h
        exact List.mem_cons_self _ _
      · simp only [mapFind?, if_neg h₁] at h
        exact List.mem_cons_of_mem _ (ih h)

/-! ### Claims -/

/-- Claim C1, amended: the round trip holds for every store whose table
map is well formed (keys unique and every table stored under its own
`name` field) and whose table names are all nonempty.  Saving such a
store into an empty directory and then loading that directory from a
fresh store over the same path reproduces the full table map, and in
particular every saved table is found again with equal name and record
map.  (Without the nonemptiness condition the claim fails: a table named
`""` is saved to the file `".json"`, whose `Path::extension` is `None`,
so `load` skips it; see the counterexample.) -/
theorem save_load_roundtrip (db : MiniDB)
    (hnd : (mapKeys db.tables).Nodup)
    (hname : ∀ q ∈ db.tables, q.2.name = q.1)
    (hne : ∀ q ∈ db.tables, q.1 ≠ "") :
    MiniDB.load (MiniDB.new db.path false).db (db.save [])
      = some { path := db.path, tables := db.tables } ∧
    ∀ n t, mapFind? n db.tables = some t →
      ∃ db₂, MiniDB.load (MiniDB.new db.path false).db (db.save []) = some db₂ ∧
        mapFind? n db₂.tables = some t := by
  have hsave : db.save []
      = db.tables.map fun q => (tableFileName q.1, encodeTable q.2) := by
    have h := saveTables_of_fresh db.tables [] hnd (by intro q hq; simp [mapKeys])
    simpa [MiniDB.save] using h
  have hfold : foldIns [] (db.tables.map Prod.snd) = db.tables := by
    simpa using foldIns_fresh db.tables [] hnd hname (by intro q hq; simp [mapKeys])
  have hload : MiniDB.load (MiniDB.new db.path false).db (db.save [])
      = some { path := db.path, tables := db.tables } := by
    rw [hsave, load_eq_loadedList, loadedList_saved db.tables hne]
    simp [MiniDB.new, hfold]
  exact ⟨hload, fun n t hfind =>
    ⟨{ path := db.path, tables := db.tables }, hload, hfind⟩⟩

/-- Witness for C1 at the spec's concrete round trip: table `"products"`
with record id 10 and field `"price" = "999"` survives save plus load on
a fresh store. -/
theorem save_load_roundtrip_witness :
    MiniDB.load (MiniDB.new "testdir" false).db (productsDB.save [])
      = some { path := "testdir", tables := [("products", productsTable)] } :=
  (save_load_roundtrip productsDB (by decide) (by decide) (by decide)).1

/-- Counterexample to C1 as stated: a store holding a table named `""`
(with a record) is saved to the file `".json"`; `load` on a fresh store
over the same directory skips that file, so the loaded store has no
tables at all and the saved table is not reproduced. -/
theorem save_load_roundtrip_cex :
    mapFind? "" emptyNameDB.tables
      = some { name := "", records := [(10, { id := 10, data := [("price", "999")] })] } ∧
    MiniDB.load (MiniDB.new "d" false).db (emptyNameDB.save [])
      = some { path := "d", tables := [] } := by
  exact ⟨by decide, by decide⟩

/-- Claim C2: inserting a record into a table name that is not present
leaves the whole store unchanged — no error, no implicit table, the
record silently dropped. -/
theorem insert_missing_table_noop (db : MiniDB) (tn : String) (r : Record)
    (h : mapFind? tn db.tables = none) : db.insert tn r = db := by
  simp [MiniDB.insert, h]

/-- Witness for C2: inserting into the never-created table `"users"`. -/
theorem insert_missing_table_noop_witness :
    MiniDB.insert { path := "d", tables := [] } "users"
        { id := 1, data := [("name", "Stan")] }
      = { path := "d", tables := [] } :=
  insert_missing_table_noop { path := "d", tables := [] } "users"
    { id := 1, data := [("name", "Stan")] } (by decide)

/-- Claim C3: `create_table` always installs a fresh empty table under
the given name, discarding whatever was there, and raises no error; in
particular after create, insert, create again the table has zero
records. -/
theorem create_table_resets (db : MiniDB) (n : String) (r : Record) :
    mapFind? n (((db.create_table n).insert n r).create_table n).tables
      = some { name := n, records := [] } ∧
    ∀ db₂ : MiniDB, mapFind? n (db₂.create_table n).tables
      = some { name := n, records := [] } := by
  refine ⟨?_, fun db₂ => ?_⟩
  · exact mapFind?_mapInsert_self _ _ _
  · exact mapFind?_mapInsert_self _ _ _

/-- Claim C4: inserting a record whose id already keys a record of an
existing table overwrites that record (last-write-wins): afterwards the
table's record map sends the id to the new record, and (for a well
formed record map) the id keys no other entry, the keys staying
`Nodup`. -/
theorem insert_overwrites (db : MiniDB) (tn : String) (r : Record) (t : Table)
    (ht : mapFind? tn db.tables = some t)
    (hnd : (mapKeys t.records).Nodup) :
    mapFind? tn (db.insert tn r).tables
      = some { t with records := mapInsert r.id r t.records } ∧
    mapFind? r.id (mapInsert r.id r t.records) = some r ∧
    (mapKeys (mapInsert r.id r t.records)).Nodup := by
  refine ⟨?_, mapFind?_mapInsert_self _ _ _, mapKeys_mapInsert_nodup _ _ hnd⟩
  unfold MiniDB.insert
  rw [ht]
  exact mapFind?_mapInsert_self _ _ _

/-- Witness for C4: overwriting the record with id 1 of table
`"users"`. -/
theorem insert_overwrites_witness :
    mapFind? "users"
        (usersDB.insert "users" { id := 1, data := [("role", "User")] }).tables
      = some { name := "users",
               records := mapInsert 1 { id := 1, data := [("role", "User")] }
                 [(1, { id := 1, data := [("role", "Admin")] })] } ∧
    mapFind? 1 (mapInsert 1 ({ id := 1, data := [("role", "User")] } : Record)
        [(1, { id := 1, data := [("role", "Admin")] })])
      = some { id := 1, data := [("role", "User")] } ∧
    (mapKeys (mapInsert 1 ({ id := 1, data := [("role", "User")] } : Record)
        [(1, { id := 1, data := [("role", "Admin")] })])).Nodup :=
  insert_overwrites usersDB "users" { id := 1, data := [("role", "User")] }
    { name := "users", records := [(1, { id := 1, data := [("role", "Admin")] })] }
    (by decide) (by decide)

/-- Claim C5: `load` inserts every deserialized table into the table map
under the table's own `name` field, not under the file's stem, so a
renamed file still loads under the stored name. -/
theorem load_keys_by_table_name (db : MiniDB) (fname : String) (c : Json)
    (t : Table) (hj : hasJsonExt fname = true) (hdec : decodeTable c = some t) :
    db.load [(fname, c)]
      = some { db with tables := mapInsert t.name t db.tables } := by
  simp [MiniDB.load, loadAux, hj, hdec]

/-- Witness for C5: the file `"renamed.json"` holding the serialized
`"products"` table loads under the key `"products"`. -/
theorem load_keys_by_table_name_witness :
    MiniDB.load { path := "d", tables := [] } [("renamed.json", encodeTable productsTable)]
      = some { path := "d", tables := [("products", productsTable)] } :=
  load_keys_by_table_name { path := "d", tables := [] } "renamed.json"
    (encodeTable productsTable) productsTable (by decide) (by decide)

/-- Claim C6: `load` merges rather than resets: when every `json` file
deserializes (with pairwise distinct table names), the load succeeds,
every in-memory table whose name is not among the loaded ones keeps its
old lookup result, and every loaded table is found under its own name,
fully replacing any same-named in-memory table. -/
theorem load_merges (db : MiniDB) (fs : FS) (ts : List Table)
    (hload : loadedList fs = some ts)
    (hnd : (ts.map Table.name).Nodup) :
    ∃ db₂, db.load fs = some db₂ ∧
      (∀ n, (∀ t ∈ ts, t.name ≠ n) →
        mapFind? n db₂.tables = mapFind? n db.tables) ∧
      (∀ t ∈ ts, mapFind? t.name db₂.tables = some t) := by
  refine ⟨{ db with tables := foldIns db.tables ts }, ?_, ?_, ?_⟩
  · rw [load_eq_loadedList, hload]
    rfl
  · intro n hn
    exact mapFind?_foldIns_not_mem ts _ hn
  · intro t ht
    exact mapFind?_foldIns_mem ts _ hnd ht

/-- Witness for C6: memory holds `"a"` (not on disk), disk holds `"b"`;
after load, `"a"` is untouched and `"b"` is present. -/
theorem load_merges_witness :
    ∃ db₂, tableADB.load tableBFS = some db₂ ∧
      (∀ n, (∀ t ∈ [({ name := "b", records := [] } : Table)], t.name ≠ n) →
        mapFind? n db₂.tables = mapFind? n tableADB.tables) ∧
      (∀ t ∈ [({ name := "b", records := [] } : Table)],
        mapFind? t.name db₂.tables = some t) :=
  load_merges tableADB tableBFS [{ name := "b", records := [] }]
    (by decide) (by decide)

/-- Claim C7: save is idempotent: with no intervening mutation, a second
save writes each table's file again with identical content, leaving the
directory exactly as after the first save. -/
theorem save_idempotent (db : MiniDB) (fs : FS)
    (hnd : (mapKeys db.tables).Nodup) :
    db.save (db.save fs) = db.save fs :=
  saveTables_idem db.tables fs hnd

/-- Witness for C7: saving the `"products"` store twice into an empty
directory. -/
theorem save_idempotent_witness :
    productsDB.save (productsDB.save []) = productsDB.save [] :=
  save_idempotent productsDB [] (by decide)

/-- Claim C8: `new` always succeeds and returns a store with an empty
table map and the given path; a directory-creation failure is only
logged (the `loggedError` flag), and the store returned on failure is
identical to the one returned on success. -/
theorem new_soft_failure (p : String) :
    (MiniDB.new p true).db.tables = [] ∧
    (MiniDB.new p true).db.path = p ∧
    (MiniDB.new p true).loggedError = true ∧
    (MiniDB.new p false).loggedError = false ∧
    (MiniDB.new p true).db = (MiniDB.new p false).db :=
  ⟨rfl, rfl, rfl, rfl, rfl⟩

/-- Claim C9: for a well formed store, save writes every table to the
file `<table_name>.json` in the store's directory with the serialized
table as content (overwriting any prior file of that name), leaves every
file not named `<table_name>.json` for some table untouched, and keeps
the directory free of duplicate file names. -/
theorem save_one_file_per_table (db : MiniDB) (fs : FS)
    (hnd : (mapKeys db.tables).Nodup) :
    (∀ q ∈ db.tables,
      mapFind? (tableFileName q.1) (db.save fs) = some (encodeTable q.2)) ∧
    (∀ f, (∀ q ∈ db.tables, tableFileName q.1 ≠ f) →
      mapFind? f (db.save fs) = mapFind? f fs) ∧
    ((mapKeys fs).Nodup → (mapKeys (db.save fs)).Nodup) :=
  ⟨fun q hq => saveTables_lookup_mem db.tables fs hnd hq,
   fun f hf => saveTables_lookup_not_touched db.tables fs hf,
   fun h => saveTables_keys_nodup db.tables fs h⟩

/-- Witness for C9: saving the `"products"` store into a directory that
already holds an unrelated file `"other.txt"`. -/
theorem save_one_file_per_table_witness :
    (∀ q ∈ productsDB.tables,
      mapFind? (tableFileName q.1) (productsDB.save [("other.txt", Json.str "x")])
        = some (encodeTable q.2)) ∧
    (∀ f, (∀ q ∈ productsDB.tables, tableFileName q.1 ≠ f) →
      mapFind? f (productsDB.save [("other.txt", Json.str "x")])
        = mapFind? f [("other.txt", Json.str "x")]) ∧
    ((mapKeys ([("other.txt", Json.str "x")] : FS)).Nodup →
      (mapKeys (productsDB.save [("other.txt", Json.str "x")])).Nodup) :=
  save_one_file_per_table productsDB [("other.txt", Json.str "x")] (by decide)

/-- Counterexample to C10 as stated: `load` does not preserve the
record-key invariant.  A hand-written table file whose record map keys
the id 99 record under `"10"` deserializes successfully (serde never
compares the map key with the record's own `id` field), so loading it
into a store satisfying the invariant yields a store violating it. -/
theorem load_record_key_cex :
    DBGood (MiniDB.new "d" false).db ∧
    (MiniDB.new "d" false).db.load mismatchedFS
      = some { path := "d",
               tables := [("x", { name := "x", records := [(10, { id := 99, data := [] })] })] } ∧
    ¬ DBGood { path := "d",
               tables := [("x", { name := "x", records := [(10, { id := 99, data := [] })] })] } :=
  ⟨by decide, by decide, by decide⟩

/-- Claim C10, amended: `new`, `create_table` and `insert` preserve the
invariant that every record is keyed by its own `id` field
unconditionally (`save` does not modify the store at all), and `load`
preserves it provided every table deserialized from the directory itself
satisfies it — which holds for every file written by `save`, but not for
arbitrary hand-written files (see the counterexample). -/
theorem ops_preserve_record_id_key (p : String) (mk : Bool) (db : MiniDB)
    (n tn : String) (r : Record) (fs : FS) (ts : List Table) :
    DBGood (MiniDB.new p mk).db ∧
    (DBGood db → DBGood (db.create_table n)) ∧
    (DBGood db → DBGood (db.insert tn r)) ∧
    (DBGood db → loadedList fs = some ts → (∀ t ∈ ts, TableGood t) →
      ∀ db₂, db.load fs = some db₂ → DBGood db₂) := by
  refine ⟨?_, ?_, ?_, ?_⟩
  · intro q hq
    simp [MiniDB.new] at hq
  · intro hg q hq
    rcases mem_mapInsert hq with h | h
    · exact hg q h
    · rw [h]
      intro x hx
      simp at hx
  · intro hg q hq
    unfold MiniDB.insert at hq
    cases ht : mapFind? tn db.tables with
    | none =>
        rw [ht] at hq
        exact hg q hq
    | some t =>
        rw [ht] at hq
        rcases mem_mapInsert hq with h | h
        · exact hg q h
        · rw [h]
          intro x hx
          rcases mem_mapInsert hx with h₂ | h₂
          · exact hg (tn, t) (mapFind?_mem ht) x h₂
          · rw [h₂]
  · intro hg hl hts db₂ hload
    rw [load_eq_loadedList, hl] at hload
    simp only [Option.map_some'] at hload
    have hdb := Option.some.inj hload
    subst hdb
    intro q hq
    rcases mem_foldIns hq with h | h
    · exact hg q h
    · exact hts q.2 h

/-- Witness for C10's load clause: loading the saved `"b"` table file
into the `"users"` store keeps the invariant. -/
theorem ops_preserve_record_id_key_witness :
    DBGood { path := "d",
             tables := [("users", { name := "users", records := [(1, { id := 1, data := [("role", "Admin")] })] }),
                        ("b", { name := "b", records := [] })] } :=
  (ops_preserve_record_id_key "d" false usersDB "n" "tn"
      { id := 0, data := [] } tableBFS [{ name := "b", records := [] }]).2.2.2
    (by decide) (by decide) (by decide) _ (by decide)
